import Mathlib

/-
Verification development for the diphone concatenation synthesizer
(`audio_synthesizer.py`).  The Python source is shallowly embedded:
pure fragments become Lean functions, the `sys.exit` / uncaught-exception
paths become `Except` errors, Python lists become Lean lists, and numpy
sample buffers become `List ℚ`.  Python-specific operations (substring
test `a in b`, negative indexing, slices) are modelled by the `py*`
helpers below with Python semantics.
-/

/- Constants from the top of the source file. -/

def RATE : Nat := 16000

def ms400 : Nat := 6400

def ms200 : Nat := 3200

def ms10 : Nat := 160

/-- Embedding of `tapering = np.array(range(ms10))/ms10`. -/
def tapering : List ℚ := (List.range ms10).map (fun (k : Nat) => (k : ℚ) / (ms10 : ℚ))

/- Python helpers. -/

/-- Python substring test `a in b` for strings (true for the empty string). -/
def pyIn (a b : String) : Bool :=
  (List.range (b.data.length + 1)).any (fun i => a.data.isPrefixOf (b.data.drop i))

/-- Python list indexing `l[idx]` with negative wrap-around;
`none` models an `IndexError`. -/
def pyGetStr (l : List String) (idx : Int) : Option String :=
  if 0 ≤ idx then
    (if idx < (l.length : Int) then some (l.getD idx.toNat "") else none)
  else
    (if 0 ≤ idx + (l.length : Int) then some (l.getD (idx + (l.length : Int)).toNat "") else none)

/-- Python `s.lower()` (character-wise lowering). -/
def pyLower (s : String) : String := String.mk (s.data.map Char.toLower)

/-- Python `enumerate` starting at a given index. -/
def enumFrom {α : Type} : Nat → List α → List (Nat × α)
  | _, [] => []
  | i, a :: as => (i, a) :: enumFrom (i + 1) as

/-- Python `string.punctuation`. -/
def string_punctuation : String :=
  "!\"#$%&\x27()*+,-./:;<=>?@[\\]^_\x60\x7b|\x7d~"

/- Markup extraction (`Synth.phrase_to_words`, lines 175-189). -/

/-- Condition under which the scan counter is bumped:
`word in string.punctuation or word in "..."`. -/
def puncty (t : String) : Bool := pyIn t string_punctuation || pyIn t "..."

/-- The punctuation class `"...,;?!"` used in the previous-token check. -/
def blockish (t : String) : Bool := pyIn t "...,;?!"

/-- The mutable state of the markup scan: the three index lists and the
punctuation counter. -/
structure MarkupState where
  commas : List Int
  stops : List Int
  marks : List Int
  counter : Nat
deriving DecidableEq

/-- The counter line `if word in string.punctuation or word in "...": counter += 1`. -/
def bumpCounter (word : String) (s : MarkupState) : MarkupState :=
  if puncty word then { s with counter := s.counter + 1 } else s

/-- One iteration of the scan over `tokens_with_punc` (the body of the
`for i, word in enumerate(...)` loop, including the `try/except IndexError`
that silently skips the whole body when `tokens_with_punc[i+2]` is out of
range). -/
def markupStep (tokens : List String) (s : MarkupState) (i : Nat) : MarkupState :=
  let word := tokens.getD i ""
  let prev := (pyGetStr tokens ((i : Int) - 1)).getD ""
  if pyIn word "," = true ∧ blockish prev = false ∧ 0 < i then
    bumpCounter word { s with commas := s.commas ++ [(i : Int) - (s.counter : Int) - 1] }
  else if pyIn word "...;?!" = true ∧ blockish prev = false ∧ 0 < i then
    bumpCounter word { s with stops := s.stops ++ [(i : Int) - (s.counter : Int) - 1] }
  else if pyIn word "\x7b" = true then
    match pyGetStr tokens ((i : Int) + 2) with
    | none => s
    | some t2 =>
      if pyIn t2 "\x7d" = true then
        bumpCounter word { s with marks := s.marks ++ [(i : Int) - (s.counter : Int)] }
      else bumpCounter word s
  else bumpCounter word s

/-- State of the markup scan after the first `m` tokens. -/
def scanState (tokens : List String) (m : Nat) : MarkupState :=
  (List.range m).foldl (markupStep tokens) ⟨[], [], [], 0⟩

/-- The full markup scan over a token sequence. -/
def extractMarkup (tokens : List String) : MarkupState :=
  scanState tokens tokens.length

/-- Embedding of `Synth.phrase_to_words`: the tokenizer collaborator
(`nltk.word_tokenize`) is passed in as a function.  Returns the
normalized word list together with the comma/stop/mark markup. -/
def phrase_to_words (tokenize : String → List String) (spell : Bool) (phrase : String) :
    List String × MarkupState :=
  let p_lower := pyLower phrase
  let tokens0 := tokenize p_lower
  let tokens_with_punc := if spell then List.intersperse "." tokens0 else tokens0
  let st := extractMarkup tokens_with_punc
  let p_norm := String.mk (p_lower.data.filter (fun c => !(string_punctuation.data.contains c)))
  (tokenize p_norm, st)

/-- Embedding of `Synth.words_to_letters`. -/
def words_to_letters (words : List String) : List String :=
  (words.map (fun w => w.data.map (fun c => String.mk [c]))).flatten

/-- Python slice `l[0:j]` where `j` may be negative. -/
def pyTakeInt (l : List Nat) (j : Int) : List Nat :=
  if 0 ≤ j then l.take j.toNat else l.take (l.length - (-j).toNat)

/-- The spelling-mode index remap from `Synth.__init__`:
`[sum(word_lengths[0:i+1])-1 for i in idxs]`. -/
def spellRemap (word_lengths : List Nat) (idxs : List Int) : List Int :=
  idxs.map (fun i => ((pyTakeInt word_lengths (i + 1)).sum : Int) - 1)

/-- The `__init__` pipeline up to and including the spelling stage
(lines 102-111): tokenize and extract markup, then in spell mode flatten
to letters and remap all three index lists. -/
def initSpellStage (tokenize : String → List String) (spell : Bool) (phrase : String) :
    List String × List Int × List Int × List Int :=
  let ws := phrase_to_words tokenize spell phrase
  let words := ws.1
  let st := ws.2
  let word_lengths := words.map String.length
  if spell then
    (words_to_letters words, spellRemap word_lengths st.commas,
     spellRemap word_lengths st.stops, spellRemap word_lengths st.marks)
  else (words, st.commas, st.stops, st.marks)

/- Phoneme sequencing (`Synth.words_to_phones`, lines 228-248). -/

/-- The ways the Python program terminates synthesis abnormally:
the guarded `sys.exit` messages and the uncaught exceptions that the
unguarded lookups can raise. -/
inductive PyErr where
  | exitUnknownWord (w : String)
  | keyError (w : String)
  | indexError
  | exitMissingUnit (d : String)
deriving DecidableEq

/-- Embedding of `Synth.preprocess_phones`: strip digits, lower-case. -/
def preprocess_phones (pre_word : List String) : List String :=
  pre_word.map (fun phone => pyLower (String.mk (phone.data.filter (fun c => !(c.isDigit)))))

/-- One iteration of the `words_to_phones` loop for word `word` at index `i`.
The current word is looked up through the guarded check (its absence gives
the `sys.exit` message), while the look-ahead `cmudict.dict()[words[i+1]]`
is unguarded and raises a `KeyError` when the next word is absent. -/
def wtpStep (cmu : String → Option (List String)) (commas stops : List Int)
    (words : List String) (i : Nat) (word : String) : Except PyErr (List String) :=
  match cmu word with
  | none => .error (.exitUnknownWord word)
  | some entry =>
    let word_phones := preprocess_phones entry
    if words.length = 1 then
      .ok (["pau"] ++ word_phones ++ ["pau"])
    else if i = 0 ∧ ¬ (((i : Int) ∈ commas) ∨ ((i : Int) ∈ stops)) then
      match cmu (words.getD (i + 1) "") with
      | none => .error (.keyError (words.getD (i + 1) ""))
      | some nextEntry =>
        match preprocess_phones nextEntry with
        | [] => .error .indexError
        | p :: _ => .ok (["pau"] ++ word_phones ++ [p])
    else if i = 0 ∧ (((i : Int) ∈ commas) ∨ ((i : Int) ∈ stops)) then
      .ok (["pau"] ++ word_phones ++ ["pau"])
    else if ((i : Int) ∈ commas) ∨ ((i : Int) ∈ stops) ∨ i = words.length - 1 then
      .ok (word_phones ++ ["pau"])
    else
      match cmu (words.getD (i + 1) "") with
      | none => .error (.keyError (words.getD (i + 1) ""))
      | some nextEntry =>
        match preprocess_phones nextEntry with
        | [] => .error .indexError
        | p :: _ => .ok (word_phones ++ [p])

/-- The `words_to_phones` loop: iterations run in order and the first
error aborts the whole loop. -/
def wtpList (cmu : String → Option (List String)) (commas stops : List Int)
    (words : List String) : List (Nat × String) → Except PyErr (List (List String))
  | [] => .ok []
  | (i, w) :: rest =>
    match wtpStep cmu commas stops words i w with
    | .error e => .error e
    | .ok p =>
      match wtpList cmu commas stops words rest with
      | .error e => .error e
      | .ok ps => .ok (p :: ps)

/-- Embedding of `Synth.words_to_phones`. -/
def words_to_phones (cmu : String → Option (List String)) (commas stops : List Int)
    (words : List String) : Except PyErr (List (List String)) :=
  wtpList cmu commas stops words (enumFrom 0 words)

/-- The five-case boundary policy as the specification states it, written
for comparison against `words_to_phones`; `ph w` is the preprocessed
phoneme list of word `w`. -/
def phonemePolicy (ph : String → List String) (commas stops : List Int)
    (words : List String) (i : Nat) : List String :=
  let phones := ph (words.getD i "")
  if words.length = 1 then
    ["pau"] ++ phones ++ ["pau"]
  else if i = 0 ∧ ¬ (((i : Int) ∈ commas) ∨ ((i : Int) ∈ stops)) then
    ["pau"] ++ phones ++ [(ph (words.getD 1 "")).headD ""]
  else if i = 0 ∧ (((i : Int) ∈ commas) ∨ ((i : Int) ∈ stops)) then
    ["pau"] ++ phones ++ ["pau"]
  else if ((i : Int) ∈ commas) ∨ ((i : Int) ∈ stops) ∨ i = words.length - 1 then
    phones ++ ["pau"]
  else
    phones ++ [(ph (words.getD (i + 1) "")).headD ""]

/- Diphone decomposition (`Synth.phones_to_diphones`, lines 289-294). -/

/-- Embedding of `Synth.phones_to_diphones`:
`[word[i] + '-' + word[i+1] for i in range(len(word)-1)]` per word. -/
def phones_to_diphones (phones : List (List String)) : List (List String) :=
  phones.map (fun word =>
    (List.range (word.length - 1)).map (fun i => word.getD i "" ++ "-" ++ word.getD (i + 1) ""))

/- Diphone file dictionary (`Synth.load_diphone_data`, lines 314-322). -/

/-- The key slice `wav_file[9:-4]` applied to a path string. -/
def diphoneKey (path : String) : String :=
  String.mk ((path.data.drop 9).take (path.length - 4 - 9))

/-- Embedding of `Synth.load_diphone_data`: the folder is abstracted as the
normalized path prefix `pre` (for the default folder this is `"diphones/"`)
and the list of wav-file base names found by the glob; each file
`pre ++ n ++ ".wav"` is keyed by its `[9:-4]` slice. -/
def load_diphone_data (pre : String) (names : List String) : List (String × String) :=
  names.map (fun n => (diphoneKey (pre ++ n ++ ".wav"), pre ++ n ++ ".wav"))

/-- Python dict lookup over insertion-ordered pairs (later insertions win). -/
def pyDictLookup (entries : List (String × String)) (k : String) : Option String :=
  entries.reverse.lookup k

/- Audio assembly (`Synth.diphones_to_wav`, lines 353-400). -/

/-- The crossfade blend of the first 10 ms of `data` with the cached
previous tail `prev`:
`data[0:ms10]*tapering + prev*tapering[::-1]` followed by the rest of `data`. -/
def blendHead (data prev : List ℚ) : List ℚ :=
  List.zipWith (fun cr pt => cr.1 * cr.2 + pt.1 * pt.2)
    ((data.take ms10).zip tapering) (prev.zip tapering.reverse) ++ data.drop ms10

/-- Modelled from the spec: `simpleaudio.Audio.rescale` is not part of the
given source; per the specification, rescaling to maximum multiplies every
sample by the factor that brings the loudest sample to the engine's
full-scale value. -/
def rescaleToMax (fullScale : ℚ) (buf : List ℚ) : List ℚ :=
  let m := buf.foldr (fun x acc => max |x| acc) 0
  buf.map (fun x => x * (fullScale / m))

/-- Modelled from the spec: the volume stage is `rescale(volume*0.01)` on
the external audio object; per the specification, rescaling to factor `f`
multiplies every sample by `f`, and the factor for volume `v` is `v/100`. -/
def applyVolume (volume : Option Int) (buf : List ℚ) : List ℚ :=
  match volume with
  | none => buf
  | some v => buf.map (fun x => x * ((v : ℚ) / 100))

/-- The punctuation / emphasis block after a word's diphones are appended
(lines 381-389): a 200 ms silence when the index is in the comma list, then
a 400 ms silence when it is in the stop list, then peak rescaling when in
the mark list. -/
def applyPunct (fullScale : ℚ) (commas stops marks : List Int) (i : Int) (buf : List ℚ) : List ℚ :=
  let buf := if i ∈ commas then buf ++ List.replicate ms200 0 else buf
  let buf := if i ∈ stops then buf ++ List.replicate ms400 0 else buf
  if i ∈ marks then rescaleToMax fullScale buf else buf

/-- The inner diphone loop of `diphones_to_wav` for one word.  `jZero`
says whether the current unit is the first of the word (`j == 0`),
`isLastWord` whether the word is the last of the utterance; `prev` is the
cached `prev_diphone_last_10ms` and `acc` the word buffer so far.  Returns
the word buffer and the cache left for the next word. -/
def goDiphone (ddict : String → Option (List ℚ)) (crossfade isLastWord : Bool) :
    List String → Bool → List ℚ → List ℚ → Except PyErr (List ℚ × List ℚ)
  | [], _, prev, acc => .ok (acc, prev)
  | label :: rest, jZero, prev, acc =>
    match ddict label with
    | none => .error (.exitMissingUnit label)
    | some data =>
      if crossfade then
        let d1 := if jZero then data else blendHead data prev
        if rest.isEmpty && isLastWord then
          goDiphone ddict crossfade isLastWord rest false prev (acc ++ d1)
        else
          goDiphone ddict crossfade isLastWord rest false
            (d1.drop (d1.length - ms10)) (acc ++ d1.take (d1.length - ms10))
      else goDiphone ddict crossfade isLastWord rest false prev (acc ++ data)

/-- The outer word loop of `diphones_to_wav`. -/
def goWord (ddict : String → Option (List ℚ)) (fullScale : ℚ) (crossfade : Bool)
    (commas stops marks : List Int) :
    List (List String) → Nat → List ℚ → List ℚ → Except PyErr (List ℚ)
  | [], _, _, acc => .ok acc
  | w :: rest, i, prev, acc =>
    match goDiphone ddict crossfade rest.isEmpty w true prev [] with
    | .error e => .error e
    | .ok (wbuf, prevNext) =>
      goWord ddict fullScale crossfade commas stops marks rest (i + 1) prevNext
        (acc ++ applyPunct fullScale commas stops marks (i : Int) wbuf)

/-- Embedding of `Synth.diphones_to_wav` (play/save side effects dropped):
assemble all words, then the optional volume rescale, then the optional
signal reversal. -/
def diphones_to_wav (ddict : String → Option (List ℚ)) (fullScale : ℚ) (crossfade : Bool)
    (commas stops marks : List Int) (volume : Option Int) (rmode : Option String)
    (diphones : List (List String)) : Except PyErr (List ℚ) :=
  match goWord ddict fullScale crossfade commas stops marks diphones 0 [] [] with
  | .error e => .error e
  | .ok buf =>
    let buf := applyVolume volume buf
    .ok (if rmode = some "signal" then buf.reverse else buf)

/- Closed forms of the crossfade word assembly (used to state what the
loop actually computes). -/

/-- Closed form of the word assembly after the first unit: each later unit
is blended with the trailing 10 ms of the unit before it, and every unit
except the last unit of the last word loses its trailing 10 ms. -/
def closedSuffix (isLastWord : Bool) : List ℚ → List (List ℚ) → List ℚ
  | _, [] => []
  | uprev, u :: rest =>
    let d := blendHead u (uprev.drop (uprev.length - ms10))
    (if rest.isEmpty && isLastWord then d else d.take (d.length - ms10)) ++
      closedSuffix isLastWord u rest

/-- Closed form of a whole word's crossfade assembly: the first unit is
not blended, later units blend with their predecessor's trailing 10 ms,
and every unit except the utterance-final one is trimmed by 10 ms. -/
def closedWordBuf (isLastWord : Bool) : List (List ℚ) → List ℚ
  | [] => []
  | u :: rest =>
    (if rest.isEmpty && isLastWord then u else u.take (u.length - ms10)) ++
      closedSuffix isLastWord u rest

/- The assembly as claim C4 words it: the taper applied at every diphone
boundary of the utterance (cross-word boundaries included) except the
utterance-final one. -/

/-- Following the claim's words: like `goDiphone` but the blend is skipped
only for the very first unit of the whole utterance (`gFirst`), so the
taper would also act across word boundaries. -/
def goDiphoneAll (ddict : String → Option (List ℚ)) (isLastWord : Bool) :
    List String → Bool → List ℚ → List ℚ → Except PyErr (List ℚ × List ℚ × Bool)
  | [], gFirst, prev, acc => .ok (acc, prev, gFirst)
  | label :: rest, gFirst, prev, acc =>
    match ddict label with
    | none => .error (.exitMissingUnit label)
    | some data =>
      let d1 := if gFirst then data else blendHead data prev
      if rest.isEmpty && isLastWord then
        goDiphoneAll ddict isLastWord rest false prev (acc ++ d1)
      else
        goDiphoneAll ddict isLastWord rest false
          (d1.drop (d1.length - ms10)) (acc ++ d1.take (d1.length - ms10))

/-- Word loop of the claim-version assembly, threading the global-first
flag and the cached tail across word boundaries. -/
def goWordAll (ddict : String → Option (List ℚ)) (fullScale : ℚ)
    (commas stops marks : List Int) :
    List (List String) → Nat → Bool → List ℚ → List ℚ → Except PyErr (List ℚ)
  | [], _, _, _, acc => .ok acc
  | w :: rest, i, gFirst, prev, acc =>
    match goDiphoneAll ddict rest.isEmpty w gFirst prev [] with
    | .error e => .error e
    | .ok (wbuf, prevNext, gFirstNext) =>
      goWordAll ddict fullScale commas stops marks rest (i + 1) gFirstNext prevNext
        (acc ++ applyPunct fullScale commas stops marks (i : Int) wbuf)

/-- The whole-utterance assembly as claim C4 describes it (crossfade
enabled, taper at every unit boundary of the utterance except the final
one). -/
def claimAssembly (ddict : String → Option (List ℚ)) (fullScale : ℚ)
    (commas stops marks : List Int) (volume : Option Int) (rmode : Option String)
    (diphones : List (List String)) : Except PyErr (List ℚ) :=
  match goWordAll ddict fullScale commas stops marks diphones 0 true [] [] with
  | .error e => .error e
  | .ok buf =>
    let buf := applyVolume volume buf
    .ok (if rmode = some "signal" then buf.reverse else buf)

/- Concrete collaborators used by witnesses and counterexamples. -/

/-- A tiny phonetic dictionary: two known words. -/
def cmuEx (w : String) : Option (List String) :=
  if w = "ab" then some ["AA1", "B"] else if w = "cd" then some ["K", "D"] else none

/-- The raw entries of `cmuEx` as a total function. -/
def cmuExRaw (w : String) : List String :=
  if w = "ab" then ["AA1", "B"] else if w = "cd" then ["K", "D"] else []

/-- A dictionary in which `"a"` is known and everything else is unknown. -/
def cmuMiss (w : String) : Option (List String) :=
  if w = "a" then some ["AH0"] else none

/-- A two-unit diphone sample library with all-zero buffers of length 320. -/
def ddictZero (l : String) : Option (List ℚ) :=
  if l = "u" then some (List.replicate 320 0)
  else if l = "v" then some (List.replicate 320 0) else none

/-- The buffers of `ddictZero` as a total function. -/
def unitsZero (l : String) : List ℚ :=
  if l = "u" then List.replicate 320 0
  else if l = "v" then List.replicate 320 0 else []

/-- A two-unit diphone sample library with all-one buffers of length 320. -/
def ddictOne (l : String) : Option (List ℚ) :=
  if l = "u" then some (List.replicate 320 1)
  else if l = "v" then some (List.replicate 320 1) else none

/-- The buffers of `ddictOne` as a total function. -/
def unitsOne (l : String) : List ℚ :=
  if l = "u" then List.replicate 320 1
  else if l = "v" then List.replicate 320 1 else []

/-- A concrete tokenizer fragment matching `nltk.word_tokenize` on the
two strings the spelling scenario needs. -/
def tokenizeEx (s : String) : List String :=
  if s = "ok." then ["ok", "."] else if s = "ok" then ["ok"] else []

/- Theorems. -/

/-- For `i < l.length`, `(List.map f l).getD i d = f l[i]` regardless of default. -/
theorem getD_map_of_lt {α β : Type} (f : α → β) (l : List α) (d : β) (i : Nat)
    (hi : i < l.length) : (List.map f l).getD i d = f (l.get ⟨i, hi⟩) := by
  rw [List.getD_eq_getElem _ _ (by simpa using hi), List.getElem_map]
  rfl

/-- Claim C2: for every phoneme list `[p0, ..., pk]` the diphone decomposer
produces exactly the labels `p0-p1, ..., p(k-1)-pk` in order, so a word with
`k+1` phonemes yields `k` labels and a word with fewer than 2 phonemes
yields the empty list; the number of per-word lists is preserved. -/
theorem phones_to_diphones_spec (phones : List (List String)) :
    (phones_to_diphones phones).length = phones.length ∧
    (∀ i, i < phones.length →
      ((phones_to_diphones phones).getD i []).length = (phones.getD i []).length - 1 ∧
      (∀ j, j + 1 < (phones.getD i []).length →
        ((phones_to_diphones phones).getD i []).getD j "" =
          (phones.getD i []).getD j "" ++ "-" ++ (phones.getD i []).getD (j + 1) "") ∧
      ((phones.getD i []).length < 2 → (phones_to_diphones phones).getD i [] = [])) := by
  refine ⟨by simp [phones_to_diphones], fun i hi => ?_⟩
  have hrw : (phones_to_diphones phones).getD i [] =
      (List.range ((phones.getD i []).length - 1)).map
        (fun j => (phones.getD i []).getD j "" ++ "-" ++ (phones.getD i []).getD (j + 1) "") := by
    unfold phones_to_diphones
    rw [getD_map_of_lt _ _ _ _ hi, List.getD_eq_getElem _ _ hi]
    rfl
  rw [hrw]
  refine ⟨by simp, fun j hj => ?_, fun hlt => ?_⟩
  · have hjlt : j < (phones.getD i []).length - 1 := by omega
    rw [getD_map_of_lt _ _ _ _ (by simpa using hjlt)]
    have hg : (List.range ((phones.getD i []).length - 1)).get ⟨j, by simpa using hjlt⟩ = j := by
      simp
    rw [hg]
  · have hz : (phones.getD i []).length - 1 = 0 := by omega
    rw [hz]
    rfl

/-- Claim C2 witness: the theorem applied to a concrete phoneme list. -/
theorem phones_to_diphones_spec_witness :
    (phones_to_diphones [["a", "b", "c"]]).length = 1 ∧
    ((phones_to_diphones [["a", "b", "c"]]).getD 0 []).length = 2 ∧
    ((phones_to_diphones [["a", "b", "c"]]).getD 0 []).getD 1 "" = "b-c" := by
  have h := phones_to_diphones_spec [["a", "b", "c"]]
  have h0 := h.2 0 (by decide)
  refine ⟨by simpa using h.1, by simpa using h0.1, ?_⟩
  have := h0.2.1 1 (by decide)
  simpa using this

/-- Claim C9: with `"a"` in the dictionary and `"xyzzy123"` absent, the
phoneme sequencer terminates with the uncaught `KeyError` raised by the
unguarded look-ahead `cmudict.dict()[words[i+1]]`, not with the guarded
`UnknownWordError`-style `sys.exit` message that names the word. -/
theorem words_to_phones_lookahead_keyError :
    words_to_phones cmuMiss [] [] ["a", "xyzzy123"] = .error (.keyError "xyzzy123") ∧
    PyErr.keyError "xyzzy123" ≠ PyErr.exitUnknownWord "xyzzy123" := by
  exact ⟨rfl, by decide⟩

/-- Counterexample to claim C5 as stated: the comma and stop checks are two
independent `if` statements (comma first), so a word index lying in both
lists receives the 200 ms comma silence **and** the 400 ms stop silence,
not the single stop silence the claim's else-if rule gives.  The input
`commas = stops = [0]` is reachable: the phrase `"a, (."` produces it. -/
theorem applyPunct_both_silences_cex :
    applyPunct 1 [0] [0] [] 0 [] = List.replicate ms200 (0 : ℚ) ++ List.replicate ms400 0 ∧
    applyPunct 1 [0] [0] [] 0 [] ≠ List.replicate ms400 (0 : ℚ) := by
  constructor
  · unfold applyPunct
    rw [if_neg (by decide : ¬ ((0 : Int) ∈ ([] : List Int))),
      if_pos (by decide : (0 : Int) ∈ ([0] : List Int)),
      if_pos (by decide : (0 : Int) ∈ ([0] : List Int))]
    rw [List.nil_append]
  · intro h
    have hlen := congrArg List.length h
    unfold applyPunct at hlen
    rw [if_neg (by decide : ¬ ((0 : Int) ∈ ([] : List Int))),
      if_pos (by decide : (0 : Int) ∈ ([0] : List Int)),
      if_pos (by decide : (0 : Int) ∈ ([0] : List Int))] at hlen
    rw [List.nil_append, List.length_append, List.length_replicate, List.length_replicate] at hlen
    exact absurd hlen (by decide)

/-- Claim C5 (amended): after a word's diphones are appended, a 200 ms
silence is appended when the word's index is in the comma list, and then
(independently) a 400 ms silence when it is in the stop list; a word in
both lists receives both silences, and when the index is in at most one of
the two lists at most one silence buffer is appended. -/
theorem applyPunct_silence_spec (fullScale : ℚ) (commas stops marks : List Int) (i : Int)
    (buf : List ℚ) (hm : i ∉ marks) :
    applyPunct fullScale commas stops marks i buf =
      (buf ++ (if i ∈ commas then List.replicate ms200 0 else [])) ++
        (if i ∈ stops then List.replicate ms400 0 else []) ∧
    (i ∉ commas ∨ i ∉ stops →
      applyPunct fullScale commas stops marks i buf = buf ∨
      applyPunct fullScale commas stops marks i buf = buf ++ List.replicate ms200 0 ∨
      applyPunct fullScale commas stops marks i buf = buf ++ List.replicate ms400 0) := by
  unfold applyPunct
  by_cases hc : i ∈ commas <;> by_cases hs : i ∈ stops <;> simp [hc, hs, hm]

/-- Claim C5 witness: the amended theorem applied at a stop-only index. -/
theorem applyPunct_silence_spec_witness :
    applyPunct 1 [1] [0] [] 0 [] = List.replicate ms400 (0 : ℚ) := by
  have h := (applyPunct_silence_spec 1 [1] [0] [] 0 [] (by decide)).1
  simpa using h

/-- Claim C8: rescaling with volume 100 multiplies every sample by
`100/100 = 1` and is the identity; an unset volume skips the rescale
entirely, so in both cases every sample of the utterance buffer is left
unchanged and the assembled output is identical. -/
theorem volume_hundred_identity :
    (∀ buf : List ℚ, applyVolume (some 100) buf = buf) ∧
    (∀ buf : List ℚ, applyVolume none buf = buf) ∧
    (∀ (ddict : String → Option (List ℚ)) (fullScale : ℚ) (crossfade : Bool)
       (commas stops marks : List Int) (rmode : Option String)
       (diphones : List (List String)),
      diphones_to_wav ddict fullScale crossfade commas stops marks (some 100) rmode diphones =
        diphones_to_wav ddict fullScale crossfade commas stops marks none rmode diphones) := by
  have h1 : ∀ buf : List ℚ, applyVolume (some 100) buf = buf := by
    intro buf
    unfold applyVolume
    norm_num
  refine ⟨h1, fun buf => rfl, fun ddict fs cf cs ss ms rm dps => ?_⟩
  unfold diphones_to_wav
  cases hgw : goWord ddict fs cf cs ss ms dps 0 [] [] with
  | error e => rfl
  | ok buf => simp [h1 buf, applyVolume]

/-- Counterexample to claim C10 as stated: with the 8-character normalized
prefix `"diphone/"` (length not 9) the file `ng-aa.wav` gets the misaligned
key `"g-aa"`, so a lookup of the genuine diphone label `"g-aa"` *hits*
(returning the wrong file) instead of every lookup missing. -/
theorem load_diphone_data_accidental_hit_cex :
    pyDictLookup (load_diphone_data "diphone/" ["ng-aa"]) "g-aa" = some "diphone/ng-aa.wav" ∧
    "diphone/".length ≠ 9 := by
  exact ⟨by decide, by decide⟩

/-- Claim C10 (amended): a key produced by the `[9:-4]` slice equals the
file's own diphone name exactly when the normalized folder prefix has
length 9 (as `"diphones/"` does); for any other prefix length every file is
keyed by something other than its own name, and whenever a required label
is absent from the dictionary, assembling a non-empty utterance fails with
the missing-unit exit. -/
theorem diphoneKey_nine_iff :
    (∀ pre n : String, n ≠ "" →
      (diphoneKey (pre ++ n ++ ".wav") = n ↔ pre.length = 9)) ∧
    (∀ (ddict : String → Option (List ℚ)) (fullScale : ℚ) (crossfade : Bool)
       (commas stops marks : List Int) (volume : Option Int) (rmode : Option String)
       (l : String) (rest : List String) (rws : List (List String)),
      ddict l = none →
      diphones_to_wav ddict fullScale crossfade commas stops marks volume rmode
          ((l :: rest) :: rws) = .error (.exitMissingUnit l)) := by
  constructor
  · intro pre n hne
    have hnlen : 0 < n.length := by
      rcases n with ⟨nd⟩
      cases nd with
      | nil => exact absurd rfl hne
      | cons c cs => simp [String.length]
    have hdata : (pre ++ n ++ ".wav").data = pre.data ++ (n.data ++ ".wav".data) := by
      simp [String.data_append]
    have hlen : (pre ++ n ++ ".wav").length = pre.length + n.length + 4 := by
      simp [String.length_append]
      rfl
    constructor
    · intro hkey
      have hkl := congrArg String.length hkey
      have hkl2 : ((((pre ++ n ++ ".wav").data.drop 9).take
          ((pre ++ n ++ ".wav").length - 4 - 9)).length : Nat) = n.length := hkl
      rw [hdata, hlen] at hkl2
      simp only [List.length_take, List.length_drop, List.length_append] at hkl2
      have hpd : pre.data.length = pre.length := rfl
      have hnd : n.data.length = n.length := rfl
      have hwd : ".wav".data.length = 4 := rfl
      rw [hpd, hnd, hwd] at hkl2
      omega
    · intro hp
      unfold diphoneKey
      rw [hdata, hlen]
      have h9 : (9 : Nat) = pre.data.length := by
        have : pre.data.length = pre.length := rfl
        omega
      rw [h9, List.drop_left]
      have htk : pre.length + n.length + 4 - 4 - pre.data.length = n.data.length := by
        have : n.data.length = n.length := rfl
        omega
      rw [htk, List.take_left]
  · intro ddict fs cf cs ss ms vol rm l rest rws hl
    unfold diphones_to_wav goWord goDiphone
    rw [hl]

/-- Claim C10 witness: with the default 9-character prefix `"diphones/"`
the key equals the diphone name, and a missing label aborts assembly. -/
theorem diphoneKey_nine_iff_witness :
    diphoneKey ("diphones/" ++ "aa-b" ++ ".wav") = "aa-b" ∧
    diphones_to_wav (fun _ => none) 1 true [] [] [] none none [["aa-b"]] =
      .error (.exitMissingUnit "aa-b") :=
  ⟨(diphoneKey_nine_iff.1 "diphones/" "aa-b" (by decide)).mpr (by decide),
   diphoneKey_nine_iff.2 (fun _ => none) 1 true [] [] [] none none "aa-b" [] [] rfl⟩

/-- Shifting a `List.range` map by one. -/
theorem range_map_shift {β : Type} (g : Nat → β) (n i : Nat) :
    (List.range (n + 1)).map (fun k => g (i + k)) =
      g i :: (List.range n).map (fun k => g (i + 1 + k)) := by
  rw [List.range_succ_eq_map, List.map_cons, List.map_map]
  congr 1
  apply List.map_congr_left
  intro a _
  simp only [Function.comp_apply]
  congr 1
  omega

/-- One `words_to_phones` iteration agrees with the five-case policy when
every word of the utterance is in the dictionary with a nonempty
preprocessed phoneme list. -/
theorem wtpStep_eq_policy (cmu : String → Option (List String)) (pf : String → List String)
    (commas stops : List Int) (words : List String)
    (h : ∀ w ∈ words, cmu w = some (pf w))
    (hne : ∀ w ∈ words, preprocess_phones (pf w) ≠ [])
    (i : Nat) (hi : i < words.length) :
    wtpStep cmu commas stops words i (words.getD i "") =
      .ok (phonemePolicy (fun x => preprocess_phones (pf x)) commas stops words i) := by
  have hmemi : words.getD i "" ∈ words := by
    rw [List.getD_eq_getElem _ _ hi]
    exact List.getElem_mem _
  simp only [wtpStep, phonemePolicy, h _ hmemi]
  by_cases h1 : words.length = 1
  · rw [if_pos h1, if_pos h1]
  · rw [if_neg h1, if_neg h1]
    by_cases h2 : i = 0 ∧ ¬ (((i : Int) ∈ commas) ∨ ((i : Int) ∈ stops))
    · rw [if_pos h2, if_pos h2]
      have hi1 : i + 1 < words.length := by omega
      have hmem1 : words.getD (i + 1) "" ∈ words := by
        rw [List.getD_eq_getElem _ _ hi1]
        exact List.getElem_mem _
      obtain ⟨p, t, hpt⟩ := List.exists_cons_of_ne_nil (hne _ hmem1)
      rcases h2 with ⟨h20, _⟩
      subst h20
      simp only [Nat.zero_add] at hpt ⊢
      simp only [h _ hmem1, hpt]
      rfl
    · rw [if_neg h2, if_neg h2]
      by_cases h3 : i = 0 ∧ (((i : Int) ∈ commas) ∨ ((i : Int) ∈ stops))
      · rw [if_pos h3, if_pos h3]
      · rw [if_neg h3, if_neg h3]
        by_cases h4 : ((i : Int) ∈ commas) ∨ ((i : Int) ∈ stops) ∨ i = words.length - 1
        · rw [if_pos h4, if_pos h4]
        · rw [if_neg h4, if_neg h4]
          have hi1 : i + 1 < words.length := by
            have : i ≠ words.length - 1 := fun hx => h4 (Or.inr (Or.inr hx))
            omega
          have hmem1 : words.getD (i + 1) "" ∈ words := by
            rw [List.getD_eq_getElem _ _ hi1]
            exact List.getElem_mem _
          obtain ⟨p, t, hpt⟩ := List.exists_cons_of_ne_nil (hne _ hmem1)
          simp only [h _ hmem1, hpt]
          rfl

/-- The `words_to_phones` loop from position `i` onward produces exactly
the per-position policy lists. -/
theorem wtpList_policy (cmu : String → Option (List String)) (pf : String → List String)
    (commas stops : List Int) (words : List String)
    (h : ∀ w ∈ words, cmu w = some (pf w))
    (hne : ∀ w ∈ words, preprocess_phones (pf w) ≠ []) :
    ∀ (suffix : List String) (i : Nat), words.drop i = suffix →
      wtpList cmu commas stops words (enumFrom i suffix) =
        .ok ((List.range suffix.length).map
          (fun k => phonemePolicy (fun x => preprocess_phones (pf x)) commas stops words (i + k))) := by
  intro suffix
  induction suffix with
  | nil => intro i _; rfl
  | cons w rest ih =>
    intro i hdrop
    have hi : i < words.length := by
      by_contra hcon
      push_neg at hcon
      rw [List.drop_eq_nil_of_le hcon] at hdrop
      exact List.noConfusion hdrop
    have hwopt : words[i]? = some w := by
      rw [← List.head?_drop, hdrop]
      rfl
    have hw : words.getD i "" = w := by
      rw [List.getD_eq_getElem?_getD, hwopt]
      rfl
    have hdrop2 : words.drop (i + 1) = rest := by
      have := List.tail_drop words i
      rw [hdrop] at this
      simpa using this.symm
    have hstep := wtpStep_eq_policy cmu pf commas stops words h hne i hi
    rw [hw] at hstep
    show wtpList cmu commas stops words ((i, w) :: enumFrom (i + 1) rest) = _
    simp only [wtpList, hstep, ih (i + 1) hdrop2]
    rw [List.length_cons, range_map_shift]

/-- Claim C1: whenever every word of the utterance has a dictionary entry
(with a nonempty preprocessed phoneme list), `words_to_phones` succeeds and
builds each word's phoneme list by exactly the five-case boundary policy:
a single word gets pau+phones+pau; word 0 outside the comma/stop lists
gets pau+phones+(first phone of word 1); word 0 inside them gets
pau+phones+pau; a word in the comma/stop lists or the last word gets
phones+pau; every other word gets phones+(first phone of the next word). -/
theorem words_to_phones_boundary_policy (cmu : String → Option (List String))
    (pf : String → List String) (commas stops : List Int) (words : List String)
    (h : ∀ w ∈ words, cmu w = some (pf w))
    (hne : ∀ w ∈ words, preprocess_phones (pf w) ≠ []) :
    words_to_phones cmu commas stops words =
      .ok ((List.range words.length).map
        (phonemePolicy (fun x => preprocess_phones (pf x)) commas stops words)) := by
  have hmain := wtpList_policy cmu pf commas stops words h hne words 0 (by simp)
  unfold words_to_phones
  rw [hmain]
  congr 1
  apply List.map_congr_left
  intro a _
  rw [Nat.zero_add]

/-- Claim C1 witness: the policy theorem applied to a concrete two-word
utterance over a concrete dictionary. -/
theorem words_to_phones_boundary_policy_witness :
    words_to_phones cmuEx [] [] ["ab", "cd"] =
      .ok ((List.range 2).map
        (phonemePolicy (fun x => preprocess_phones (cmuExRaw x)) [] [] ["ab", "cd"])) := by
  have h := words_to_phones_boundary_policy cmuEx cmuExRaw [] [] ["ab", "cd"]
    (by intro w hw; fin_cases hw <;> rfl)
    (by intro w hw; fin_cases hw <;> decide)
  simpa using h

/-- A nonempty string has positive length. -/
theorem strlen_pos (s : String) (h : s ≠ "") : 0 < s.data.length := by
  rcases s with ⟨sd⟩
  cases sd with
  | nil => exact absurd rfl h
  | cons c cs => simp

/-- Unfolding `words_to_letters` over a cons. -/
theorem words_to_letters_cons (w : String) (rest : List String) :
    words_to_letters (w :: rest) =
      w.data.map (fun c => String.mk [c]) ++ words_to_letters rest := by
  simp [words_to_letters]

/-- In the flattened letter list, position `sum(lengths[0..i+1]) - 1` holds
the last letter of word `i`. -/
theorem words_to_letters_lastLetter (words : List String) :
    ∀ i, i < words.length → (∀ w ∈ words, w ≠ "") →
      (words_to_letters words).getD (((words.take (i + 1)).map String.length).sum - 1) "" =
        String.mk [(words.getD i "").data.getD ((words.getD i "").data.length - 1) ' '] := by
  induction words with
  | nil => intro i hi _; simp at hi
  | cons w rest ih =>
    intro i hi hne
    have hw : w ≠ "" := hne w (by simp)
    have hwpos : 0 < w.data.length := strlen_pos w hw
    have hwlen : w.length = w.data.length := rfl
    cases i with
    | zero =>
      rw [List.take_succ_cons, List.take_zero]
      simp only [List.map_cons, List.map_nil, List.sum_cons, List.sum_nil, Nat.add_zero]
      rw [words_to_letters_cons]
      have hidx : w.length - 1 < (w.data.map (fun c => String.mk [c])).length := by
        simp only [List.length_map]
        omega
      rw [List.getD_append _ _ _ _ hidx]
      rw [List.getD_eq_getElem _ _ hidx, List.getElem_map]
      have hgd : (w :: rest).getD 0 "" = w := rfl
      rw [hgd, List.getD_eq_getElem _ _ (by omega : w.data.length - 1 < w.data.length)]
      rfl
    | succ j =>
      have hj : j < rest.length := by simpa using hi
      have hne2 : ∀ x ∈ rest, x ≠ "" := fun x hx => hne x (by simp [hx])
      have hS : 0 < ((rest.take (j + 1)).map String.length).sum := by
        rcases rest with _ | ⟨r, rt⟩
        · simp at hj
        · have hr : 0 < r.data.length := strlen_pos r (hne2 r (by simp))
          have hrlen : r.length = r.data.length := rfl
          rw [List.take_succ_cons]
          simp only [List.map_cons, List.sum_cons]
          omega
      rw [List.take_succ_cons]
      simp only [List.map_cons, List.sum_cons]
      rw [words_to_letters_cons]
      have hlenmap : (w.data.map (fun c => String.mk [c])).length = w.length := by
        simp only [List.length_map]
        rfl
      rw [List.getD_append_right _ _ _ _ (by omega)]
      rw [hlenmap]
      rw [show w.length + ((rest.take (j + 1)).map String.length).sum - 1 - w.length =
        ((rest.take (j + 1)).map String.length).sum - 1 from by omega]
      exact ih j hj hne2

/-- Claim C7: with `spell` set, the word sequence is replaced by its
flattened letter sequence and every comma/stop/mark index is remapped from
old word position `i` to `sum(lengths[0:i+1]) - 1`, which is the position
of that word's last letter in the letter sequence; in particular for the
phrase `"ok."` the word sequence becomes `["o", "k"]` and the recomputed
stop list is `[1]`, the index of the last letter. -/
theorem spell_remap_spec :
    (∀ (tokenize : String → List String) (phrase : String),
      (initSpellStage tokenize true phrase).1 =
        words_to_letters (phrase_to_words tokenize true phrase).1 ∧
      (initSpellStage tokenize true phrase).2.1 =
        spellRemap ((phrase_to_words tokenize true phrase).1.map String.length)
          (phrase_to_words tokenize true phrase).2.commas ∧
      (initSpellStage tokenize true phrase).2.2.1 =
        spellRemap ((phrase_to_words tokenize true phrase).1.map String.length)
          (phrase_to_words tokenize true phrase).2.stops ∧
      (initSpellStage tokenize true phrase).2.2.2 =
        spellRemap ((phrase_to_words tokenize true phrase).1.map String.length)
          (phrase_to_words tokenize true phrase).2.marks) ∧
    (∀ (words : List String) (i : Nat), i < words.length → (∀ w ∈ words, w ≠ "") →
      spellRemap (words.map String.length) [(i : Int)] =
        [(((words.take (i + 1)).map String.length).sum : Int) - 1] ∧
      (words_to_letters words).getD (((words.take (i + 1)).map String.length).sum - 1) "" =
        String.mk [(words.getD i "").data.getD ((words.getD i "").data.length - 1) ' ']) ∧
    (∀ tokenize : String → List String,
      tokenize "ok." = ["ok", "."] → tokenize "ok" = ["ok"] →
      initSpellStage tokenize true "ok." = (["o", "k"], [], [1], [])) := by
  refine ⟨fun tokenize phrase => ⟨rfl, rfl, rfl, rfl⟩,
    fun words i hi hne => ⟨?_, words_to_letters_lastLetter words i hi hne⟩,
    fun tokenize h1 h2 => ?_⟩
  · unfold spellRemap pyTakeInt
    simp only [List.map_cons, List.map_nil]
    rw [if_pos (by omega : (0 : Int) ≤ (i : Int) + 1)]
    rw [show ((i : Int) + 1).toNat = i + 1 from by omega]
    rw [List.map_take]
  · have hlow : pyLower "ok." = "ok." := by decide
    have hnorm : String.mk ("ok.".data.filter (fun c => !(string_punctuation.data.contains c))) =
        "ok" := by decide
    have hphr : phrase_to_words tokenize true "ok." = (["ok"], ⟨[], [0], [], 2⟩) := by
      simp only [phrase_to_words, hlow, h1, hnorm, h2]
      rfl
    simp only [initSpellStage, hphr]
    decide

/-- Claim C7 witness: the spelling theorem applied to the concrete
scenario tokenizer and to a concrete word list. -/
theorem spell_remap_spec_witness :
    initSpellStage tokenizeEx true "ok." = (["o", "k"], [], [1], []) ∧
    (words_to_letters ["ab", "c"]).getD 2 "" = "c" := by
  constructor
  · exact spell_remap_spec.2.2 tokenizeEx (by decide) (by decide)
  · have h := (spell_remap_spec.2.1 ["ab", "c"] 1 (by decide) (by decide)).2
    simpa using h

/-- The taper window holds `ms10` coefficients. -/
theorem tapering_length : tapering.length = ms10 := by
  rw [tapering, List.length_map, List.length_range]

/-- The crossfade blend keeps the unit's length when the cached tail has
the full 10 ms length. -/
theorem blendHead_length (d p : List ℚ) (hd : ms10 ≤ d.length) (hp : p.length = ms10) :
    (blendHead d p).length = d.length := by
  unfold blendHead
  rw [List.length_append, List.length_zipWith, List.length_zip, List.length_zip,
    List.length_take, List.length_reverse, tapering_length, List.length_drop, hp]
  omega

/-- The blend only touches the first 10 ms: for units of at least 20 ms the
trailing 10 ms window is unchanged. -/
theorem blendHead_drop (d p : List ℚ) (hd : 2 * ms10 ≤ d.length) (hp : p.length = ms10) :
    (blendHead d p).drop (d.length - ms10) = d.drop (d.length - ms10) := by
  unfold blendHead
  have hzlen : (List.zipWith (fun cr pt => cr.1 * cr.2 + pt.1 * pt.2)
      ((d.take ms10).zip tapering) (p.zip tapering.reverse)).length = ms10 := by
    rw [List.length_zipWith, List.length_zip, List.length_zip, List.length_take,
      List.length_reverse, tapering_length, hp]
    omega
  rw [show d.length - ms10 = (List.zipWith (fun cr pt => cr.1 * cr.2 + pt.1 * pt.2)
      ((d.take ms10).zip tapering) (p.zip tapering.reverse)).length + (d.length - 2 * ms10)
    from by omega]
  rw [List.drop_append, List.drop_drop]
  have harith : ms10 + (d.length - 2 * ms10) = d.length - ms10 := by omega
  rw [harith, hzlen, harith]

/-- A mapped list is empty exactly when the original is. -/
theorem isEmpty_map {α β : Type} (f : α → β) (l : List α) :
    (l.map f).isEmpty = l.isEmpty := by
  cases l <;> rfl

/-- The crossfade loop from the second unit of a word onward computes the
closed-form `closedSuffix`. -/
theorem goDiphone_closedSuffix (ddict : String → Option (List ℚ)) (units : String → List ℚ)
    (isLastWord : Bool) :
    ∀ (labels : List String) (uprev acc : List ℚ),
      (∀ l ∈ labels, ddict l = some (units l)) →
      (∀ l ∈ labels, 2 * ms10 ≤ (units l).length) →
      2 * ms10 ≤ uprev.length →
      ∃ tl, goDiphone ddict true isLastWord labels false (uprev.drop (uprev.length - ms10)) acc =
        .ok (acc ++ closedSuffix isLastWord uprev (labels.map units), tl) := by
  intro labels
  induction labels with
  | nil =>
    intro uprev acc _ _ _
    exact ⟨uprev.drop (uprev.length - ms10), by simp [goDiphone, closedSuffix]⟩
  | cons l rest ih =>
    intro uprev acc h hlen hup
    have hdl : ddict l = some (units l) := h l (by simp)
    have hul : 2 * ms10 ≤ (units l).length := hlen l (by simp)
    have hplen : (uprev.drop (uprev.length - ms10)).length = ms10 := by
      simp only [List.length_drop]
      omega
    have hd1len : (blendHead (units l) (uprev.drop (uprev.length - ms10))).length =
        (units l).length := blendHead_length _ _ (by omega) hplen
    by_cases hlast : (rest.isEmpty && isLastWord) = true
    · rcases rest with _ | ⟨x, xs⟩
      · have hLW : isLastWord = true := by simpa using hlast
        subst hLW
        exact ⟨uprev.drop (uprev.length - ms10), by simp [goDiphone, hdl, closedSuffix]⟩
      · simp at hlast
    · obtain ⟨tl, htl⟩ := ih (units l)
        (acc ++ (blendHead (units l) (uprev.drop (uprev.length - ms10))).take
          ((units l).length - ms10))
        (fun x hx => h x (by simp [hx])) (fun x hx => hlen x (by simp [hx])) hul
      refine ⟨tl, ?_⟩
      simp only [goDiphone, hdl, if_pos trivial]
      rw [if_neg (by simp : ¬ (false = true))]
      rw [if_neg hlast, hd1len, blendHead_drop _ _ hul hplen, htl]
      simp only [closedSuffix, List.map_cons, isEmpty_map]
      rw [if_neg hlast, hd1len]
      rw [List.append_assoc]

/-- The whole-word crossfade loop computes the closed form
`closedWordBuf`. -/
theorem goDiphone_closedWord (ddict : String → Option (List ℚ)) (units : String → List ℚ)
    (isLastWord : Bool) (labels : List String) (prev : List ℚ)
    (h : ∀ l ∈ labels, ddict l = some (units l))
    (hlen : ∀ l ∈ labels, 2 * ms10 ≤ (units l).length) :
    ∃ tl, goDiphone ddict true isLastWord labels true prev [] =
      .ok (closedWordBuf isLastWord (labels.map units), tl) := by
  cases labels with
  | nil => exact ⟨prev, by simp [goDiphone, closedWordBuf]⟩
  | cons l rest =>
    have hdl : ddict l = some (units l) := h l (by simp)
    have hul : 2 * ms10 ≤ (units l).length := hlen l (by simp)
    by_cases hlast : (rest.isEmpty && isLastWord) = true
    · rcases rest with _ | ⟨x, xs⟩
      · have hLW : isLastWord = true := by simpa using hlast
        subst hLW
        exact ⟨prev, by simp [goDiphone, hdl, closedWordBuf, closedSuffix]⟩
      · simp at hlast
    · obtain ⟨tl, htl⟩ := goDiphone_closedSuffix ddict units isLastWord rest (units l)
        ((units l).take ((units l).length - ms10))
        (fun x hx => h x (by simp [hx])) (fun x hx => hlen x (by simp [hx])) hul
      refine ⟨tl, ?_⟩
      simp only [goDiphone, hdl, if_pos trivial]
      rw [if_neg hlast, List.nil_append, htl]
      simp only [closedWordBuf, List.map_cons, isEmpty_map]
      rw [if_neg hlast]

/-- Length of the closed-form suffix: every unit contributes its full
length minus 10 ms, except the last unit when the word is the last word
(stated additively). -/
theorem closedSuffix_length (isLastWord : Bool) :
    ∀ (us : List (List ℚ)) (uprev : List ℚ),
      (∀ u ∈ us, 2 * ms10 ≤ u.length) → 2 * ms10 ≤ uprev.length →
      (closedSuffix isLastWord uprev us).length +
          ms10 * (if isLastWord = true then us.length - 1 else us.length) =
        (us.map List.length).sum := by
  intro us
  induction us with
  | nil =>
    intro uprev _ _
    simp [closedSuffix]
  | cons u rest ih =>
    intro uprev hlen hup
    have hu : 2 * ms10 ≤ u.length := hlen u (by simp)
    have hplen : (uprev.drop (uprev.length - ms10)).length = ms10 := by
      simp only [List.length_drop]
      omega
    have hd1len : (blendHead u (uprev.drop (uprev.length - ms10))).length = u.length :=
      blendHead_length _ _ (by omega) hplen
    have ihl := ih u (fun x hx => hlen x (by simp [hx])) hu
    simp only [closedSuffix, List.length_append, List.map_cons, List.sum_cons, List.length_cons]
    by_cases hlast : (rest.isEmpty && isLastWord) = true
    · rcases rest with _ | ⟨x, xs⟩
      · have hLW : isLastWord = true := by simpa using hlast
        subst hLW
        rw [if_pos hlast]
        simp [closedSuffix, hd1len]
      · simp at hlast
    · rw [if_neg hlast, List.length_take, hd1len]
      rcases isLastWord with _ | _
      · have hff : ¬ (false = true) := by simp
        rw [if_neg hff] at ihl ⊢
        simp only [ms10] at ihl hu ⊢
        omega
      · have hrne : rest ≠ [] := by
          intro hr
          subst hr
          simp at hlast
        have hrpos : 0 < rest.length := List.length_pos.mpr hrne
        rw [if_pos rfl] at ihl ⊢
        simp only [ms10] at ihl hu ⊢
        omega

/-- Length of the closed-form word buffer (stated additively). -/
theorem closedWordBuf_length (isLastWord : Bool) (us : List (List ℚ))
    (hlen : ∀ u ∈ us, 2 * ms10 ≤ u.length) :
    (closedWordBuf isLastWord us).length +
        ms10 * (if isLastWord = true then us.length - 1 else us.length) =
      (us.map List.length).sum := by
  cases us with
  | nil => simp [closedWordBuf]
  | cons u rest =>
    have hu : 2 * ms10 ≤ u.length := hlen u (by simp)
    have ihl := closedSuffix_length isLastWord rest u (fun x hx => hlen x (by simp [hx])) hu
    simp only [closedWordBuf, List.length_append, List.map_cons, List.sum_cons, List.length_cons]
    by_cases hlast : (rest.isEmpty && isLastWord) = true
    · rcases rest with _ | ⟨x, xs⟩
      · have hLW : isLastWord = true := by simpa using hlast
        subst hLW
        rw [if_pos hlast]
        simp [closedSuffix]
      · simp at hlast
    · rw [if_neg hlast, List.length_take]
      rcases isLastWord with _ | _
      · have hff : ¬ (false = true) := by simp
        rw [if_neg hff] at ihl ⊢
        simp only [ms10] at ihl hu ⊢
        omega
      · have hrne : rest ≠ [] := by
          intro hr
          subst hr
          simp at hlast
        have hrpos : 0 < rest.length := List.length_pos.mpr hrne
        rw [if_pos rfl] at ihl ⊢
        simp only [ms10] at ihl hu ⊢
        omega

/-- Claim C4 (amended): with crossfade enabled the taper is applied only at
diphone boundaries *within* a word (the `j > 0` check): the assembled word
buffer is exactly `closedWordBuf`, in which the first unit of every word is
left unblended — so no blend happens across a word boundary even though
the previous word's trailing 10 ms was removed and cached — every later
unit is blended with the trailing 10 ms of its predecessor, and every unit
except the utterance-final one loses its trailing 10 ms. -/
theorem crossfade_taper_within_word_only (ddict : String → Option (List ℚ))
    (units : String → List ℚ) (isLastWord : Bool) (labels : List String) (prev : List ℚ)
    (h : ∀ l ∈ labels, ddict l = some (units l))
    (hlen : ∀ l ∈ labels, 2 * ms10 ≤ (units l).length) :
    ∃ tl, goDiphone ddict true isLastWord labels true prev [] =
      .ok (closedWordBuf isLastWord (labels.map units), tl) :=
  goDiphone_closedWord ddict units isLastWord labels prev h hlen

set_option maxRecDepth 10000 in
/-- Claim C4 witness: the amended theorem applied to a concrete last word
of two 320-sample units. -/
theorem crossfade_taper_within_word_only_witness :
    ∃ tl, goDiphone ddictOne true true ["u", "v"] true [] [] =
      .ok (closedWordBuf true (["u", "v"].map unitsOne), tl) :=
  crossfade_taper_within_word_only ddictOne unitsOne true ["u", "v"] []
    (by intro l hl; fin_cases hl <;> rfl)
    (by intro l hl; fin_cases hl <;> decide)

/-- Claim C3 (amended): with crossfade enabled a word's assembled buffer
(before any pause silence) has length equal to the sum of its diphone unit
lengths minus `ms10` samples for each of its diphones that is not the
utterance-final diphone: the last word with `n` diphones yields
`sum - 160*(n-1)`, while every non-last word yields `sum - 160*n`, its
last unit's trailing 10 ms also being held back for cross-word caching. -/
theorem crossfade_word_sample_count (ddict : String → Option (List ℚ))
    (units : String → List ℚ) (isLastWord : Bool) (labels : List String) (prev : List ℚ)
    (h : ∀ l ∈ labels, ddict l = some (units l))
    (hlen : ∀ l ∈ labels, 2 * ms10 ≤ (units l).length) :
    ∃ buf tl, goDiphone ddict true isLastWord labels true prev [] = .ok (buf, tl) ∧
      buf.length = (labels.map (fun l => (units l).length)).sum -
        ms10 * (if isLastWord = true then labels.length - 1 else labels.length) := by
  obtain ⟨tl, htl⟩ := goDiphone_closedWord ddict units isLastWord labels prev h hlen
  refine ⟨_, tl, htl, ?_⟩
  have hl := closedWordBuf_length isLastWord (labels.map units) (by
    intro u hu
    obtain ⟨l, hml, rfl⟩ := List.mem_map.mp hu
    exact hlen l hml)
  rw [List.length_map] at hl
  have hmm : ((labels.map units).map List.length) = labels.map (fun l => (units l).length) := by
    rw [List.map_map]
    rfl
  rw [hmm] at hl
  omega

set_option maxRecDepth 10000 in
/-- Claim C3 witness: the amended length theorem applied to a concrete
last word of two 320-sample units, giving `640 - 160*(2-1) = 480`. -/
theorem crossfade_word_sample_count_witness :
    ∃ buf tl, goDiphone ddictZero true true ["u", "v"] true [] [] = .ok (buf, tl) ∧
      buf.length = 480 := by
  obtain ⟨buf, tl, h1, h2⟩ := crossfade_word_sample_count ddictZero unitsZero true
    ["u", "v"] []
    (by intro l hl; fin_cases hl <;> rfl)
    (by intro l hl; fin_cases hl <;> decide)
  refine ⟨buf, tl, h1, ?_⟩
  rw [h2]
  decide

set_option maxRecDepth 10000 in
/-- Counterexample to claim C3 as stated: a non-last word with one
320-sample diphone yields a 160-sample buffer (its trailing 10 ms is held
back for the next word), not the `320 - 160*(1-1) = 320` samples the
claim's formula gives; on the two-word utterance `[["u"], ["v"]]` the full
assembled buffer has 480 samples, not `320 + 320 = 640`. -/
theorem crossfade_word_sample_count_cex :
    (∃ buf tl, goDiphone ddictZero true false ["u"] true [] [] = .ok (buf, tl) ∧
      buf.length = 160) ∧
    (∃ buf, diphones_to_wav ddictZero 1 true [] [] [] none none [["u"], ["v"]] = .ok buf ∧
      buf.length = 480) ∧
    (160 : Nat) ≠ 320 - 160 * (1 - 1) ∧ (480 : Nat) ≠ 640 := by
  refine ⟨⟨_, _, rfl, by decide⟩, ⟨_, rfl, by decide⟩, by decide, by decide⟩

set_option maxRecDepth 10000 in
/-- The code-side assembly of the two-word, one-unit-per-word utterance
over all-one 320-sample units: no blend is ever applied (each word's only
unit has `j = 0`), so the output is 160 ones followed by 320 ones. -/
theorem diphones_to_wav_two_words_ones :
    diphones_to_wav ddictOne 1 true [] [] [] none none [["u"], ["v"]] =
      .ok (List.replicate 160 (1 : ℚ) ++ List.replicate 320 1) := rfl

set_option maxRecDepth 10000 in
/-- The claim-side assembly of the same utterance: the second word's unit
is blended with the cached tail of the first word. -/
theorem claimAssembly_two_words_ones :
    claimAssembly ddictOne 1 [] [] [] none none [["u"], ["v"]] =
      .ok (List.replicate 160 (1 : ℚ) ++
        blendHead (List.replicate 320 1) (List.replicate 160 1)) := rfl

set_option maxRecDepth 10000 in
/-- At position 160 the code output holds the unblended sample 1. -/
theorem code_sample_at_160 :
    (List.replicate 160 (1 : ℚ) ++ List.replicate 320 1).getD 160 0 = 1 := by
  rw [List.getD_append_right _ _ _ _ (by decide)]
  simp only [List.length_replicate, Nat.sub_self]
  rfl

set_option maxRecDepth 10000 in
/-- At position 160 the claim output holds the blended sample `159/160`. -/
theorem claim_sample_at_160 :
    (List.replicate 160 (1 : ℚ) ++
      blendHead (List.replicate 320 1) (List.replicate 160 1)).getD 160 0 = 159 / 160 := by
  rw [List.getD_append_right _ _ _ _ (by decide)]
  simp only [List.length_replicate, Nat.sub_self]
  unfold blendHead
  have h1 : (List.replicate 320 (1 : ℚ)).take ms10 = 1 :: List.replicate 159 1 := by
    rw [List.take_replicate, show ms10 ⊓ 320 = 159 + 1 from by decide, List.replicate_succ]
  have h2 : List.replicate 160 (1 : ℚ) = 1 :: List.replicate 159 1 := by
    rw [show (160 : Nat) = 159 + 1 from rfl, List.replicate_succ]
  obtain ⟨ts3, h3⟩ : ∃ ts : List ℚ, tapering = (0 : ℚ) :: ts := by
    refine ⟨(((List.range 159).map Nat.succ).map (fun (k : Nat) => (k : ℚ) / (ms10 : ℚ))), ?_⟩
    rw [tapering, show ms10 = 159 + 1 from rfl, List.range_succ_eq_map, List.map_cons,
      List.map_map]
    norm_num
  obtain ⟨ts4, h4⟩ : ∃ ts : List ℚ, tapering.reverse = (159 / 160 : ℚ) :: ts := by
    refine ⟨((List.range 159).map (fun (k : Nat) => (k : ℚ) / (ms10 : ℚ))).reverse, ?_⟩
    rw [tapering, show ms10 = 159 + 1 from rfl, List.range_succ, List.map_append,
      List.reverse_append]
    have : ((159 : Nat) : ℚ) / ((ms10 : Nat) : ℚ) = 159 / 160 := by
      norm_num [ms10]
    simp [this]
  rw [h1, h2, h4, h3, List.zip_cons_cons, List.zip_cons_cons, List.zipWith_cons_cons,
    List.cons_append]
  show (1 : ℚ) * 0 + 1 * (159 / 160) = 159 / 160
  norm_num

/-- Counterexample to claim C4 as stated: on the two-word utterance
`[["u"], ["v"]]` over all-one 320-sample units, the code's assembly
differs from the claim's taper-at-every-boundary assembly: the code leaves
the second word's leading 10 ms unblended (sample value 1 at position 160)
while the claim's version blends it with the first word's cached tail
(sample value 159/160 there). -/
theorem crossfade_cross_word_no_blend_cex :
    diphones_to_wav ddictOne 1 true [] [] [] none none [["u"], ["v"]] ≠
      claimAssembly ddictOne 1 [] [] [] none none [["u"], ["v"]] := by
  intro heq
  rw [diphones_to_wav_two_words_ones, claimAssembly_two_words_ones] at heq
  injection heq with hl
  have h160 := congrArg (fun t => t.getD 160 (0 : ℚ)) hl
  simp only [] at h160
  rw [code_sample_at_160, claim_sample_at_160] at h160
  norm_num at h160

/-- A valid `getD` access yields a member of the list. -/
theorem getD_mem {α : Type} (l : List α) (i : Nat) (d : α) (h : i < l.length) :
    l.getD i d ∈ l := by
  rw [List.getD_eq_getElem _ _ h]
  exact List.getElem_mem h

/-- Unfolding one step of the markup scan. -/
theorem scanState_succ (tokens : List String) (m : Nat) :
    scanState tokens (m + 1) = markupStep tokens (scanState tokens m) m := by
  unfold scanState
  rw [List.range_succ, List.foldl_append]
  rfl

/-- The counter line increments the counter exactly when the token is
counted as punctuation. -/
theorem bumpCounter_counter (word : String) (t : MarkupState) :
    (bumpCounter word t).counter = t.counter ∨
    ((bumpCounter word t).counter = t.counter + 1 ∧ puncty word = true) := by
  unfold bumpCounter
  split_ifs with h
  · exact Or.inr ⟨rfl, h⟩
  · exact Or.inl rfl

/-- The counter line never touches the comma list. -/
theorem bumpCounter_commas (word : String) (t : MarkupState) :
    (bumpCounter word t).commas = t.commas := by
  unfold bumpCounter
  split_ifs <;> rfl

/-- The counter line never touches the stop list. -/
theorem bumpCounter_stops (word : String) (t : MarkupState) :
    (bumpCounter word t).stops = t.stops := by
  unfold bumpCounter
  split_ifs <;> rfl

/-- One scan step changes the counter by at most one, and only when the
token is counted as punctuation. -/
theorem markupStep_counter (tokens : List String) (s : MarkupState) (i : Nat) :
    (markupStep tokens s i).counter = s.counter ∨
    ((markupStep tokens s i).counter = s.counter + 1 ∧ puncty (tokens.getD i "") = true) := by
  simp only [markupStep]
  split_ifs with h1 h2 h3
  · exact bumpCounter_counter _ _
  · exact bumpCounter_counter _ _
  · cases pyGetStr tokens ((i : Int) + 2) with
    | none => exact Or.inl rfl
    | some t2 =>
      dsimp only
      split_ifs with h4
      · exact bumpCounter_counter _ _
      · exact bumpCounter_counter _ _
  · exact bumpCounter_counter _ _

/-- One scan step either leaves the comma list alone or appends the value
`i - counter - 1`, and the append happens only under the comma branch
conditions. -/
theorem markupStep_commas (tokens : List String) (s : MarkupState) (i : Nat) :
    (markupStep tokens s i).commas = s.commas ∨
    ((markupStep tokens s i).commas = s.commas ++ [(i : Int) - (s.counter : Int) - 1] ∧
      0 < i ∧ blockish ((pyGetStr tokens ((i : Int) - 1)).getD "") = false ∧
      pyIn (tokens.getD i "") "," = true) := by
  simp only [markupStep]
  split_ifs with h1 h2 h3
  · exact Or.inr ⟨bumpCounter_commas _ _, h1.2.2, h1.2.1, h1.1⟩
  · exact Or.inl (bumpCounter_commas _ _)
  · cases pyGetStr tokens ((i : Int) + 2) with
    | none => exact Or.inl rfl
    | some t2 =>
      dsimp only
      split_ifs with h4
      · exact Or.inl (bumpCounter_commas _ _)
      · exact Or.inl (bumpCounter_commas _ _)
  · exact Or.inl (bumpCounter_commas _ _)

/-- One scan step either leaves the stop list alone or appends the value
`i - counter - 1`, and the append happens only under the stop branch
conditions (in particular the token is not a comma token). -/
theorem markupStep_stops (tokens : List String) (s : MarkupState) (i : Nat) :
    (markupStep tokens s i).stops = s.stops ∨
    ((markupStep tokens s i).stops = s.stops ++ [(i : Int) - (s.counter : Int) - 1] ∧
      0 < i ∧ blockish ((pyGetStr tokens ((i : Int) - 1)).getD "") = false ∧
      pyIn (tokens.getD i "") "," = false) := by
  simp only [markupStep]
  split_ifs with h1 h2 h3
  · exact Or.inl (bumpCounter_stops _ _)
  · refine Or.inr ⟨bumpCounter_stops _ _, h2.2.2, h2.2.1, ?_⟩
    cases hpc : pyIn (tokens.getD i "") "," with
    | false => rfl
    | true => exact absurd ⟨hpc, h2.2.1, h2.2.2⟩ h1
  · cases pyGetStr tokens ((i : Int) + 2) with
    | none => exact Or.inl rfl
    | some t2 =>
      dsimp only
      split_ifs with h4
      · exact Or.inl (bumpCounter_stops _ _)
      · exact Or.inl (bumpCounter_stops _ _)
  · exact Or.inl (bumpCounter_stops _ _)

/-- The scan counter is monotone in the number of processed tokens. -/
theorem counter_le_of_le (tokens : List String) :
    ∀ a b, a ≤ b → (scanState tokens a).counter ≤ (scanState tokens b).counter := by
  intro a b hab
  induction b with
  | zero =>
    have ha : a = 0 := by omega
    subst ha
    exact le_refl _
  | succ b ihb =>
    rcases Nat.lt_or_ge a (b + 1) with h | h
    · refine le_trans (ihb (by omega)) ?_
      rw [scanState_succ]
      rcases markupStep_counter tokens (scanState tokens b) b with h2 | ⟨h2, _⟩ <;> omega
    · have ha : a = b + 1 := by omega
      subst ha
      exact le_refl _

/-- The scan counter grows by at most one per token. -/
theorem counter_lipschitz (tokens : List String) :
    ∀ a b, a ≤ b →
      (scanState tokens b).counter ≤ (scanState tokens a).counter + (b - a) := by
  intro a b hab
  induction b with
  | zero =>
    have ha : a = 0 := by omega
    subst ha
    simp
  | succ b ihb =>
    rcases Nat.lt_or_ge a (b + 1) with h | h
    · have h1 := ihb (by omega)
      rw [scanState_succ]
      rcases markupStep_counter tokens (scanState tokens b) b with h2 | ⟨h2, _⟩ <;> omega
    · have ha : a = b + 1 := by omega
      subst ha
      simp

/-- When the counter gains exactly `b - a` over the token range `[a, b)`,
every token in that range is counted as punctuation. -/
theorem counter_exact_step (tokens : List String) (a b j : Nat) (hj1 : a ≤ j) (hj2 : j < b)
    (heq : (scanState tokens b).counter = (scanState tokens a).counter + (b - a)) :
    puncty (tokens.getD j "") = true := by
  rcases markupStep_counter tokens (scanState tokens j) j with h | ⟨h, hp⟩
  · exfalso
    have h1 := counter_lipschitz tokens (j + 1) b (by omega)
    have h2 : (scanState tokens (j + 1)).counter = (scanState tokens j).counter := by
      rw [scanState_succ]
      exact h
    have h3 := counter_lipschitz tokens a j hj1
    omega
  · exact hp

/-- Resolving the previous-token access inside the scan range. -/
theorem pyGetStr_prev (tokens : List String) (m : Nat) (h0 : 0 < m) (hm : m ≤ tokens.length) :
    pyGetStr tokens ((m : Int) - 1) = some (tokens.getD (m - 1) "") := by
  unfold pyGetStr
  rw [if_pos (by omega : (0 : Int) ≤ (m : Int) - 1)]
  rw [if_pos (by omega : (m : Int) - 1 < (tokens.length : Int))]
  rw [show ((m : Int) - 1).toNat = m - 1 from by omega]

/-- Every element of the scanned comma list was appended by some comma
branch at a position with a non-comma/stop predecessor. -/
theorem commas_scan_spec (tokens : List String) :
    ∀ m, m ≤ tokens.length → ∀ v ∈ (scanState tokens m).commas,
      ∃ k, k < m ∧ 0 < k ∧ blockish (tokens.getD (k - 1) "") = false ∧
        pyIn (tokens.getD k "") "," = true ∧
        v = (k : Int) - ((scanState tokens k).counter : Int) - 1 := by
  intro m
  induction m with
  | zero =>
    intro _ v hv
    simp [scanState] at hv
  | succ m ih =>
    intro hm v hv
    rw [scanState_succ] at hv
    rcases markupStep_commas tokens (scanState tokens m) m with hc | ⟨hc, hi0, hbl, hcm⟩
    · rw [hc] at hv
      obtain ⟨k, hk, r1, r2, r3, r4⟩ := ih (by omega) v hv
      exact ⟨k, by omega, r1, r2, r3, r4⟩
    · rw [hc] at hv
      rcases List.mem_append.mp hv with hv2 | hv2
      · obtain ⟨k, hk, r1, r2, r3, r4⟩ := ih (by omega) v hv2
        exact ⟨k, by omega, r1, r2, r3, r4⟩
      · have hv3 : v = (m : Int) - ((scanState tokens m).counter : Int) - 1 := by
          simpa using hv2
        refine ⟨m, by omega, hi0, ?_, hcm, hv3⟩
        rw [pyGetStr_prev tokens m hi0 (by omega)] at hbl
        exact hbl

/-- Every element of the scanned stop list was appended by some stop
branch at a position with a non-comma/stop predecessor and a token that is
not a comma token. -/
theorem stops_scan_spec (tokens : List String) :
    ∀ m, m ≤ tokens.length → ∀ v ∈ (scanState tokens m).stops,
      ∃ k, k < m ∧ 0 < k ∧ blockish (tokens.getD (k - 1) "") = false ∧
        pyIn (tokens.getD k "") "," = false ∧
        v = (k : Int) - ((scanState tokens k).counter : Int) - 1 := by
  intro m
  induction m with
  | zero =>
    intro _ v hv
    simp [scanState] at hv
  | succ m ih =>
    intro hm v hv
    rw [scanState_succ] at hv
    rcases markupStep_stops tokens (scanState tokens m) m with hc | ⟨hc, hi0, hbl, hcm⟩
    · rw [hc] at hv
      obtain ⟨k, hk, r1, r2, r3, r4⟩ := ih (by omega) v hv
      exact ⟨k, by omega, r1, r2, r3, r4⟩
    · rw [hc] at hv
      rcases List.mem_append.mp hv with hv2 | hv2
      · obtain ⟨k, hk, r1, r2, r3, r4⟩ := ih (by omega) v hv2
        exact ⟨k, by omega, r1, r2, r3, r4⟩
      · have hv3 : v = (m : Int) - ((scanState tokens m).counter : Int) - 1 := by
          simpa using hv2
        refine ⟨m, by omega, hi0, ?_, hcm, hv3⟩
        rw [pyGetStr_prev tokens m hi0 (by omega)] at hbl
        exact hbl

/-- Claim C6 (amended): the comma and stop index lists are disjoint for
every token sequence in which each counted punctuation token belongs to
the comma/stop class `"...,;?!"` (as for plain words mixed with the tokens
`, . ... ; ? !`); with other punctuation tokens such as `(` in between, a
later stop can land on the same word position as an earlier comma, so the
lists need not be disjoint in general. -/
theorem markup_comma_stop_disjoint (tokens : List String)
    (hyp : ∀ t ∈ tokens, puncty t = true → blockish t = true) :
    ∀ v : Int, v ∈ (extractMarkup tokens).commas → v ∉ (extractMarkup tokens).stops := by
  intro v hc hs
  obtain ⟨k, hk, hk0, hkbl, hkcm, hkv⟩ :=
    commas_scan_spec tokens tokens.length le_rfl v hc
  obtain ⟨q, hq, hq0, hqbl, hqcm, hqv⟩ :=
    stops_scan_spec tokens tokens.length le_rfl v hs
  have hne : k ≠ q := by
    intro he
    subst he
    rw [hkcm] at hqcm
    exact Bool.noConfusion hqcm
  rcases Nat.lt_or_ge k q with hlt | hge
  · have hceq : (scanState tokens q).counter = (scanState tokens k).counter + (q - k) := by
      have hmono := counter_le_of_le tokens k q (by omega)
      have hlip := counter_lipschitz tokens k q (by omega)
      omega
    have hpunc := counter_exact_step tokens k q (q - 1) (by omega) (by omega) hceq
    have hmem : tokens.getD (q - 1) "" ∈ tokens := getD_mem tokens (q - 1) "" (by omega)
    have hbl := hyp _ hmem hpunc
    rw [hbl] at hqbl
    exact Bool.noConfusion hqbl
  · have hlt2 : q < k := by omega
    have hceq : (scanState tokens k).counter = (scanState tokens q).counter + (k - q) := by
      have hmono := counter_le_of_le tokens q k (by omega)
      have hlip := counter_lipschitz tokens q k (by omega)
      omega
    have hpunc := counter_exact_step tokens q k (k - 1) (by omega) (by omega) hceq
    have hmem : tokens.getD (k - 1) "" ∈ tokens := getD_mem tokens (k - 1) "" (by omega)
    have hbl := hyp _ hmem hpunc
    rw [hbl] at hkbl
    exact Bool.noConfusion hkbl

/-- Counterexample to claim C6 as stated: on the token sequence of the
phrase `"a, (."` the counted-but-not-blocking token `(` resets the
adjacency check, so word position 0 is appended to both the comma and the
stop lists — they are not disjoint. -/
theorem markup_comma_stop_overlap_cex :
    (0 : Int) ∈ (extractMarkup ["a", ",", "(", "."]).commas ∧
    (0 : Int) ∈ (extractMarkup ["a", ",", "(", "."]).stops := by
  exact ⟨by decide, by decide⟩

/-- Claim C6 witness: on the well-behaved token sequence of
`"hi, there."` the amended theorem yields disjointness at position 0. -/
theorem markup_comma_stop_disjoint_witness :
    (0 : Int) ∈ (extractMarkup ["hi", ",", "there", "."]).commas ∧
    (0 : Int) ∉ (extractMarkup ["hi", ",", "there", "."]).stops :=
  ⟨by decide, markup_comma_stop_disjoint ["hi", ",", "there", "."] (by decide) 0 (by decide)⟩
